import Mathlib

set_option linter.unusedSectionVars false

/-!
Shallow embedding of the Shamir secret-sharing core of the `paperback`
repository (`pkg/paperback-core/src/shamir/dealer.rs`), together with
spec-modelled interfaces for the parts of the crate the dealer uses but
whose sources are not part of this excerpt (the `gf` finite-field module
and the `Shard` type declaration).

Modelling conventions:
* The field `GfElem` (GF(2^32) in the implementation) is abstracted as an
  arbitrary decidable-equality field `F`: the spec fixes only the field
  axioms and leaves the irreducible polynomial implementation-defined.
* The 4-byte conversion of field elements is abstracted as a `ByteEnc`
  structure carrying exactly the properties the spec states (fixed 4-byte
  width, short chunks zero-padded losslessly).
* Rust panics (`assert!`, `expect`) and recoverable `Result` errors are
  distinguished by the `Failure` type: `Failure.panic` models process
  termination, `Failure.err` models a returned error value.
* Randomness is passed explicitly: `Dealer::new` takes the stream of
  non-constant polynomial coefficients, `next_shard` takes the stream of
  candidate `x` draws together with fuel for the retry loop.
-/

namespace Shamir

/-- Little-endian base-256 value of a byte list.
Modelled from the spec: `GfElem::from_bytes` (gf module, not in this
excerpt) — "lossless conversion to/from 4-byte sequences", endianness
fixed for the whole system. -/
def fromLE : List ℕ → ℕ
  | [] => 0
  | b :: bs => b + 256 * fromLE bs

/-- Little-endian base-256 digits of a number, at a fixed width.
Modelled from the spec: `GfElem::to_bytes` (gf module, not in this
excerpt) — "exactly 4 bytes; no error path". -/
def toLE : ℕ → ℕ → List ℕ
  | 0, _ => []
  | w + 1, n => n % 256 :: toLE w (n / 256)

theorem toLE_length (w n : ℕ) : (toLE w n).length = w := by
  induction w generalizing n with
  | zero => rfl
  | succ w ih => simp [toLE, ih]

theorem fromLE_lt (c : List ℕ) (hb : ∀ b ∈ c, b < 256) :
    fromLE c < 256 ^ c.length := by
  induction c with
  | nil => simp [fromLE]
  | cons b bs ih =>
    have hb0 : b < 256 := hb b (by simp)
    have hbs : fromLE bs < 256 ^ bs.length := ih fun x hx => hb x (by simp [hx])
    calc b + 256 * fromLE bs < 256 + 256 * fromLE bs := by omega
    _ = 256 * (fromLE bs + 1) := by ring
    _ ≤ 256 * 256 ^ bs.length := by
        exact Nat.mul_le_mul_left 256 (Nat.succ_le_of_lt hbs)
    _ = 256 ^ (b :: bs).length := by rw [List.length_cons, pow_succ, mul_comm]

theorem toLE_fromLE (w : ℕ) (c : List ℕ) (hw : c.length ≤ w) (hb : ∀ b ∈ c, b < 256) :
    toLE w (fromLE c) = c ++ List.replicate (w - c.length) 0 := by
  induction c generalizing w with
  | nil =>
    induction w with
    | zero => rfl
    | succ w ih =>
      simp only [fromLE] at *
      simp [toLE, ih (by simp), List.replicate_succ]
  | cons b bs ih =>
    match w, hw with
    | w + 1, hw =>
      have hb0 : b < 256 := hb b (by simp)
      have h1 : (b + 256 * fromLE bs) % 256 = b := by
        rw [Nat.add_mul_mod_self_left, Nat.mod_eq_of_lt hb0]
      have h2 : (b + 256 * fromLE bs) / 256 = fromLE bs := by
        rw [Nat.add_mul_div_left _ _ (by norm_num), Nat.div_eq_of_lt hb0, zero_add]
      simp only [fromLE, toLE, h1, h2]
      rw [ih w (by simpa using hw) (fun x hx => hb x (by simp [hx]))]
      simp

/-- Modelled from the spec: the field-element/byte conversion interface of
the gf module (not in this excerpt). `toBytes` always yields exactly 4
bytes; converting a chunk of at most 4 bytes to a field element and back
recovers the chunk followed by zero padding ("last group zero/short-padded
conceptually; true length preserved via `secret_len`"). -/
structure ByteEnc (F : Type) where
  fromBytes : List ℕ → F
  toBytes : F → List ℕ
  toBytes_length : ∀ x, (toBytes x).length = 4
  toBytes_fromBytes : ∀ c, c.length ≤ 4 → (∀ b ∈ c, b < 256) →
    toBytes (fromBytes c) = c ++ List.replicate (4 - c.length) 0

/-- Fuel-indexed worker for `chunksOf` (structural recursion on fuel). -/
def chunksAux (n : ℕ) : ℕ → List α → List (List α)
  | 0, _ => []
  | _, [] => []
  | fuel + 1, a :: as => (a :: as).take n :: chunksAux n fuel ((a :: as).drop n)

/-- Slicing a list into consecutive chunks of `n` elements, the last chunk
possibly shorter; embeds Rust's slice `chunks(n)` iterator as used in
`Dealer::new`. -/
def chunksOf (n : ℕ) (l : List α) : List (List α) := chunksAux n l.length l

variable {F : Type} [Field F] [DecidableEq F]

/-- Evaluation of a coefficient-list polynomial, coefficient 0 the constant
term. Modelled from the spec: `GfPolynomial::evaluate` (gf module, not in
this excerpt) — "the standard polynomial sum Σ cᵢ·xⁱ using field
arithmetic". -/
def evalCoeffs (c : List F) (x : F) : F :=
  ∑ i : Fin c.length, c.get i * x ^ (i : ℕ)

/-- Barycentric weights of a sample-point list.
Modelled from the spec: `GfBarycentric` (gf module, not in this excerpt) —
"precompute weights wᵢ = 1 / Πⱼ≠ᵢ (xᵢ - xⱼ) once". -/
def nodeWeights (pts : List (F × F)) : List F :=
  List.ofFn fun i : Fin pts.length =>
    (∏ j in Finset.univ.erase i, ((pts.get i).1 - (pts.get j).1))⁻¹

/-- Barycentric evaluation at a query point.
Modelled from the spec: `GfBarycentric::evaluate` (gf module, not in this
excerpt) — "for any query point x evaluate via Σᵢ (wᵢ/(x - xᵢ))·yᵢ ÷
Σᵢ wᵢ/(x - xᵢ), with the special case x = xᵢ returning yᵢ directly". -/
def baryEval (pts : List (F × F)) (ws : List F) (x : F) : F :=
  match pts.find? fun p => decide (p.1 = x) with
  | some p => p.2
  | none =>
    (∑ i : Fin pts.length, ws.getD i 0 / (x - (pts.get i).1) * (pts.get i).2) /
      ∑ i : Fin pts.length, ws.getD i 0 / (x - (pts.get i).1)

/-- Embeds `Box<dyn EvaluablePolynomial>`: the closed union of the two
polynomial variants held by a `Dealer` (random coefficient polynomials
from `Dealer::new`, barycentric reconstructions from `Dealer::recover`). -/
inductive EvalPoly (F : Type) where
  | coeffs (c : List F)
  | bary (pts : List (F × F)) (ws : List F)
deriving DecidableEq

/-- Evaluation through the `EvaluablePolynomial` capability. -/
def EvalPoly.evaluate : EvalPoly F → F → F
  | .coeffs c, x => evalCoeffs c x
  | .bary pts ws, x => baryEval pts ws x

/-- Constant term through the `EvaluablePolynomial` capability. For the
barycentric variant this is evaluation at `ZERO`, per the spec's sanity
invariant "evaluation at x = 0 must return the constant term". -/
def EvalPoly.constant : EvalPoly F → F
  | .coeffs c => c.headD 0
  | .bary pts ws => baryEval pts ws 0

/-- Identifies which of the Rust `assert!`/`expect` sites fired. -/
inductive PanicKind where
  | thresholdZero
  | noShards
  | inconsistent
  | wrongShardCount
  | constantCollision
  | zeroShard
deriving DecidableEq

/-- Modelled from the spec: the crate's recoverable `shamir::Error` values
produced by the interpolation routines (duplicate x-coordinates /
wrong point count). -/
inductive Error where
  | duplicateX
  | wrongPointCount
deriving DecidableEq

/-- Outcome of a fallible operation: a Rust panic (process termination) or
a returned recoverable error value. -/
inductive Failure where
  | panic (k : PanicKind)
  | err (e : Error)
deriving DecidableEq

instance {ε α : Type} [DecidableEq ε] [DecidableEq α] : DecidableEq (Except ε α) := fun x y =>
  match x, y with
  | .ok a, .ok b =>
    if h : a = b then .isTrue (by rw [h])
    else .isFalse (by intro hc; injection hc; exact h ‹_›)
  | .ok _, .error _ => .isFalse (by intro hc; exact Except.noConfusion hc)
  | .error _, .ok _ => .isFalse (by intro hc; exact Except.noConfusion hc)
  | .error a, .error b =>
    if h : a = b then .isTrue (by rw [h])
    else .isFalse (by intro hc; injection hc; exact h ‹_›)

/-- Embeds the `Shard` struct (declared in `shard.rs`, fields as used by
`dealer.rs`): sample abscissa `x`, one `y` per dealer polynomial, plus
`threshold` and `secret_len` metadata. -/
structure Shard (F : Type) where
  x : F
  ys : List F
  threshold : ℕ
  secret_len : ℕ
deriving DecidableEq

/-- Embeds the `Dealer` struct of `dealer.rs`. -/
structure Dealer (F : Type) where
  polys : List (EvalPoly F)
  secret_len : ℕ
  threshold : ℕ
deriving DecidableEq

instance [Field F] : Inhabited (Shard F) := ⟨⟨0, [], 0, 0⟩⟩

/-- Embeds `Dealer::new`: chunk the secret into 4-byte groups, build one
degree-`threshold - 1` polynomial per chunk with the chunk as constant
term and the remaining coefficients drawn from the explicit randomness
stream `coeffRand` (polynomial index, coefficient index). The Rust
`assert!(threshold > 0)` is modelled as a panic outcome. -/
def Dealer.new (enc : ByteEnc F) (threshold : ℕ) (secret : List ℕ)
    (coeffRand : ℕ → ℕ → F) : Except Failure (Dealer F) :=
  if threshold = 0 then .error (.panic .thresholdZero)
  else .ok
    { polys := (chunksOf 4 secret).enum.map fun ic =>
        .coeffs (enc.fromBytes ic.2 :: (List.range (threshold - 1)).map (coeffRand ic.1))
      secret_len := secret.length
      threshold := threshold }

/-- Embeds `Dealer::secret`: concatenate the constant terms' bytes and
truncate to `secret_len`. -/
def Dealer.secret (d : Dealer F) (enc : ByteEnc F) : List ℕ :=
  ((d.polys.map fun p => enc.toBytes p.constant).flatten).take d.secret_len

/-- Embeds `Dealer::shard`: `None` at `x = ZERO`; otherwise evaluate every
polynomial at `x`, panicking if the internal assertion
`threshold == 1 || y != poly.constant()` fails for some polynomial. -/
def Dealer.shard (d : Dealer F) (x : F) : Except Failure (Option (Shard F)) :=
  if x = 0 then .ok none
  else if d.polys.all fun p => decide (d.threshold = 1 ∨ p.evaluate x ≠ p.constant) then
    .ok (some { x := x, ys := d.polys.map fun p => p.evaluate x,
                threshold := d.threshold, secret_len := d.secret_len })
  else .error (.panic .constantCollision)

/-- First non-zero element of the stream `xr`, searched up to `fuel` draws;
embeds the `while x == ZERO` retry loop of `Dealer::next_shard` (`none`
models the loop not having terminated within `fuel` draws). -/
def firstNonzero : (ℕ → F) → ℕ → Option F
  | _, 0 => none
  | xr, fuel + 1 => if xr 0 = 0 then firstNonzero (fun k => xr (k + 1)) fuel else some (xr 0)

/-- Embeds `Dealer::next_shard`: draw a random non-zero `x` (retry loop on
the explicit stream `xr`), then call `shard`; the `expect` on the `None`
case is modelled as a panic outcome. -/
def Dealer.next_shard (d : Dealer F) (xr : ℕ → F) (fuel : ℕ) :
    Option (Except Failure (Shard F)) :=
  (firstNonzero xr fuel).map fun x =>
    match d.shard x with
    | .ok (some s) => .ok s
    | .ok none => .error (.panic .zeroShard)
    | .error f => .error f

/-- Shared helper: the three per-shard consistency checks of
`Dealer::recover` and `recover_secret` against the first shard's
metadata. -/
def consistentWith (threshold polys_len secret_len : ℕ) (s : Shard F) : Bool :=
  decide (s.threshold = threshold) && decide (s.ys.length = polys_len) &&
    decide (s.secret_len = secret_len)

/-- Result-collecting map, embedding Rust's
`collect::<Result<Vec<_>, _>>()`: the first error short-circuits,
otherwise the list of successes is returned. -/
def mapE (f : α → Except ε β) : List α → Except ε (List β)
  | [] => .ok []
  | a :: as =>
    match f a, mapE f as with
    | .error e, _ => .error e
    | .ok _, .error e => .error e
    | .ok b, .ok bs => .ok (b :: bs)

theorem mapE_ok_iff (f : α → Except ε β) (l : List α) (ys : List β) :
    mapE f l = .ok ys ↔ List.Forall₂ (fun a b => f a = .ok b) l ys := by
  induction l generalizing ys with
  | nil =>
    constructor
    · intro h
      injection h with h
      rw [← h]
      exact List.Forall₂.nil
    · intro h
      cases h
      rfl
  | cons a as ih =>
    constructor
    · intro h
      rw [mapE] at h
      cases hfa : f a with
      | error e => rw [hfa] at h; exact absurd h (by simp)
      | ok b =>
        cases hrest : mapE f as with
        | error e => rw [hfa, hrest] at h; exact absurd h (by simp)
        | ok bs =>
          rw [hfa, hrest] at h
          injection h with h
          rw [← h]
          exact List.Forall₂.cons hfa ((ih bs).mp hrest)
    · intro h
      cases h with
      | cons hab hrest =>
        rw [mapE, hab, (ih _).mpr hrest]

theorem mapE_ok_length (f : α → Except ε β) (l : List α) (ys : List β)
    (h : mapE f l = .ok ys) : ys.length = l.length :=
  List.Forall₂.length_eq ((mapE_ok_iff f l ys).mp h) |>.symm

/-- Modelled from the spec: `GfBarycentric::recover` (gf module, not in
this excerpt) — requires exactly `k + 1` sample points with pairwise
distinct x values, errors otherwise, and produces the barycentric
polynomial object with precomputed weights. -/
def baryRecover (k : ℕ) (pts : List (F × F)) : Except Error (EvalPoly F) :=
  if pts.length ≠ k + 1 then .error .wrongPointCount
  else if ¬ (pts.map Prod.fst).Nodup then .error .duplicateX
  else .ok (.bary pts (nodeWeights pts))

/-- Modelled from the spec: `gf::lagrange_constant` (gf module, not in
this excerpt) — requires exactly `k + 1` sample points with pairwise
distinct x values, errors otherwise, and returns
Σᵢ yᵢ · Πⱼ≠ᵢ (0 - xⱼ)/(xᵢ - xⱼ). -/
def lagrange_constant (k : ℕ) (pts : List (F × F)) : Except Error F :=
  if pts.length ≠ k + 1 then .error .wrongPointCount
  else if ¬ (pts.map Prod.fst).Nodup then .error .duplicateX
  else .ok (∑ i : Fin pts.length,
    (pts.get i).2 * ∏ j in Finset.univ.erase i,
      (0 - (pts.get j).1) / ((pts.get i).1 - (pts.get j).1))

/-- Mutual consistency of a shard set: every shard agrees with the first
on threshold, value count and secret length (the three `assert!`s in the
consistency loops of `Dealer::recover` and `recover_secret`). -/
def mutuallyConsistent (shards : List (Shard F)) : Bool :=
  shards.all (consistentWith (shards.headD default).threshold
    (shards.headD default).ys.length (shards.headD default).secret_len)

/-- Embeds `Dealer::recover`: non-emptiness, mutual-consistency and
exact-count `assert!`s (panics), then per-polynomial-index barycentric
reconstruction, propagating interpolation errors as error values. -/
def Dealer.recover (shards : List (Shard F)) : Except Failure (Dealer F) :=
  if shards.isEmpty then .error (.panic .noShards)
  else if ¬ mutuallyConsistent shards then .error (.panic .inconsistent)
  else if shards.length ≠ (shards.headD default).threshold then
    .error (.panic .wrongShardCount)
  else
    match mapE (fun i => baryRecover ((shards.headD default).threshold - 1)
        (shards.map fun s => (s.x, s.ys.getD i 0)))
        (List.range (shards.headD default).ys.length) with
    | .error e => .error (.err e)
    | .ok polys =>
      .ok { polys := polys
            secret_len := (shards.headD default).secret_len
            threshold := (shards.headD default).threshold }

/-- Embeds the free function `recover_secret`: same entry checks as
`Dealer::recover`, then per-polynomial-index constant-term recovery via
`lagrange_constant`, bytes concatenated and truncated to `secret_len`. -/
def recover_secret (enc : ByteEnc F) (shards : List (Shard F)) :
    Except Failure (List ℕ) :=
  if shards.isEmpty then .error (.panic .noShards)
  else if ¬ mutuallyConsistent shards then .error (.panic .inconsistent)
  else if shards.length ≠ (shards.headD default).threshold then
    .error (.panic .wrongShardCount)
  else
    match mapE (fun i => lagrange_constant ((shards.headD default).threshold - 1)
        (shards.map fun s => (s.x, s.ys.getD i 0)))
        (List.range (shards.headD default).ys.length) with
    | .error e => .error (.err e)
    | .ok consts =>
      .ok (((consts.map enc.toBytes).flatten).take (shards.headD default).secret_len)

theorem chunksAux_nil (n fuel : ℕ) : chunksAux n fuel ([] : List α) = [] := by
  cases fuel <;> rfl

theorem chunks_enc_roundtrip (enc : ByteEnc F) :
    ∀ (fuel : ℕ) (l : List ℕ), l.length ≤ fuel → (∀ b ∈ l, b < 256) →
      (((chunksAux 4 fuel l).map fun c => enc.toBytes (enc.fromBytes c)).flatten).take
        l.length = l := by
  intro fuel
  induction fuel with
  | zero =>
    intro l hl _
    have : l = [] := List.eq_nil_of_length_eq_zero (Nat.le_zero.mp hl)
    subst this; rfl
  | succ f ih =>
    intro l hl hb
    match l with
    | [] => rfl
    | a :: as =>
      set l := a :: as with hldef
      have htake : (l.take 4).length ≤ 4 := by simp
      have hbt : ∀ b ∈ l.take 4, b < 256 := fun b hbmem => hb b (List.mem_of_mem_take hbmem)
      simp only [chunksAux, List.map_cons, List.flatten_cons]
      rw [enc.toBytes_fromBytes _ htake hbt]
      by_cases h4 : l.length ≤ 4
      · have ht : l.take 4 = l := List.take_of_length_le h4
        have hd : l.drop 4 = [] := List.drop_eq_nil_of_le h4
        rw [ht, hd, chunksAux_nil]
        simp only [List.map_nil, List.flatten_nil, List.append_nil]
        rw [List.take_left']
        rfl
      · push_neg at h4
        have hlen4 : (l.take 4).length = 4 := by simp [List.length_take]; omega
        rw [hlen4]
        simp only [Nat.sub_self, List.replicate_zero, List.append_nil]
        have hsplit : l.length = 4 + (l.drop 4).length := by
          simp [List.length_drop]; omega
        rw [hsplit]
        have key := @List.take_append _ (l.take 4)
          (((chunksAux 4 f (l.drop 4)).map fun c =>
            enc.toBytes (enc.fromBytes c)).flatten) ((l.drop 4).length)
        rw [hlen4] at key
        rw [key, ih (l.drop 4) (by simp [List.length_drop]; omega)
          (fun b hbmem => hb b (List.mem_of_mem_drop hbmem))]
        exact List.take_append_drop 4 l

theorem enum_map_snd_comp (l : List α) (g : α → β) :
    l.enum.map (fun p => g p.2) = l.map g := by
  rw [show (fun p : ℕ × α => g p.2) = g ∘ Prod.snd from rfl, ← List.map_map,
    List.enum_map_snd]

theorem map_enum_constant_bytes (enc : ByteEnc F) (t : ℕ) (rand : ℕ → ℕ → F)
    (l : List (List ℕ)) :
    (l.enum.map fun ic => (EvalPoly.coeffs (enc.fromBytes ic.2 ::
        (List.range (t - 1)).map (rand ic.1)) : EvalPoly F)).map
      (fun p => enc.toBytes p.constant)
    = l.map fun c => enc.toBytes (enc.fromBytes c) := by
  rw [List.map_map]
  exact enum_map_snd_comp l (fun c => enc.toBytes (enc.fromBytes c))

/-- C1: for every threshold `t ≥ 1` and every byte sequence `s`,
`Dealer::new(t, s)` succeeds and the constructed dealer's `secret()`
returns exactly `s`: chunking into 4-byte field elements, concatenating
the constant terms' bytes and truncating to `secret_len` is the identity
on the original bytes. -/
theorem C1_roundtrip (enc : ByteEnc F) (t : ℕ) (ht : 1 ≤ t) (s : List ℕ)
    (hs : ∀ b ∈ s, b < 256) (rand : ℕ → ℕ → F) :
    ∃ d, Dealer.new enc t s rand = Except.ok d ∧ d.secret enc = s := by
  have ht0 : ¬ t = 0 := by omega
  refine ⟨_, by rw [Dealer.new, if_neg ht0], ?_⟩
  show Dealer.secret _ enc = s
  rw [Dealer.secret]
  rw [map_enum_constant_bytes enc t rand (chunksOf 4 s), chunksOf]
  exact chunks_enc_roundtrip enc s.length s le_rfl hs

/-- Modulus of the concrete witness field: the Mersenne prime `2^61 - 1`,
a computable field of decidable equality large enough for the 4-byte
encoding to be lossless. -/
def P61 : ℕ := mersenne 61

instance : Fact (Nat.Prime P61) :=
  ⟨lucas_lehmer_sufficiency 61 (by norm_num) (by norm_num)⟩

instance : NeZero P61 := ⟨by unfold P61; norm_num [mersenne]⟩

/-- Concrete byte encoding on the witness field. -/
def encP : ByteEnc (ZMod P61) where
  fromBytes c := (fromLE c : ZMod P61)
  toBytes x := toLE 4 (x.val % 2 ^ 32)
  toBytes_length _ := toLE_length 4 _
  toBytes_fromBytes c hc hb := by
    have h1 : fromLE c < 2 ^ 32 := by
      calc fromLE c < 256 ^ c.length := fromLE_lt c hb
      _ ≤ 256 ^ 4 := Nat.pow_le_pow_right (by norm_num) hc
      _ ≤ 2 ^ 32 := by norm_num
    have h2 : ((fromLE c : ZMod P61)).val = fromLE c :=
      ZMod.val_cast_of_lt (lt_of_lt_of_le h1 (by unfold P61; norm_num [mersenne]))
    show toLE 4 (((fromLE c : ZMod P61)).val % 2 ^ 32) = c ++ List.replicate (4 - c.length) 0
    rw [h2, Nat.mod_eq_of_lt h1]
    exact toLE_fromLE 4 c hc hb

/-- Degenerate coefficient-randomness stream for witnesses. -/
def zeroRandP : ℕ → ℕ → ZMod P61 := fun _ _ => 0

theorem C1_roundtrip_witness :
    (1 ≤ 3) ∧ (∀ b ∈ [1, 2, 3, 4, 5], b < 256) ∧
      ∃ d, Dealer.new encP 3 [1, 2, 3, 4, 5] zeroRandP = Except.ok d ∧
        d.secret encP = [1, 2, 3, 4, 5] :=
  ⟨by norm_num, by decide,
    C1_roundtrip encP 3 (by norm_num) [1, 2, 3, 4, 5] (by decide) zeroRandP⟩

theorem shard_ok_iff (d : Dealer F) (x : F) (sh : Shard F) :
    d.shard x = .ok (some sh) ↔
      x ≠ 0 ∧ (∀ p ∈ d.polys, d.threshold = 1 ∨ p.evaluate x ≠ p.constant) ∧
        sh = ⟨x, d.polys.map fun p => p.evaluate x, d.threshold, d.secret_len⟩ := by
  unfold Dealer.shard
  by_cases h0 : x = 0
  · simp [h0]
  · rw [if_neg h0]
    by_cases hall : d.polys.all (fun p => decide (d.threshold = 1 ∨ p.evaluate x ≠ p.constant)) = true
    · rw [if_pos hall]
      rw [List.all_eq_true] at hall
      constructor
      · intro h
        injection h with h
        injection h with h
        exact ⟨h0, fun p hp => of_decide_eq_true (hall p hp), h.symm⟩
      · rintro ⟨-, -, rfl⟩
        rfl
    · rw [if_neg hall]
      constructor
      · intro h; exact absurd h (by simp)
      · rintro ⟨-, hsafe, rfl⟩
        exact absurd (by rw [List.all_eq_true]; exact fun p hp => decide_eq_true (hsafe p hp)) hall

theorem shard_zero (d : Dealer F) : d.shard 0 = .ok none := by
  unfold Dealer.shard
  rw [if_pos rfl]

theorem firstNonzero_ne_zero {xr : ℕ → F} {fuel : ℕ} {x : F}
    (h : firstNonzero xr fuel = some x) : x ≠ 0 := by
  induction fuel generalizing xr with
  | zero => exact absurd h (by simp [firstNonzero])
  | succ f ih =>
    rw [firstNonzero] at h
    by_cases h0 : xr 0 = 0
    · rw [if_pos h0] at h
      exact ih h
    · rw [if_neg h0] at h
      injection h with h
      rw [← h]
      exact h0

/-- C4: every shard returned by `next_shard` has a non-zero `x`
coordinate: whatever the dealer state and the stream of random draws, a
successfully produced shard satisfies `x ≠ ZERO`. -/
theorem C4_next_shard_nonzero_x (d : Dealer F) (xr : ℕ → F) (fuel : ℕ) (sh : Shard F)
    (h : d.next_shard xr fuel = some (.ok sh)) : sh.x ≠ 0 := by
  unfold Dealer.next_shard at h
  cases hfz : firstNonzero xr fuel with
  | none => rw [hfz] at h; exact absurd h (by simp)
  | some x =>
    rw [hfz, Option.map_some'] at h
    injection h with h
    cases hsx : d.shard x with
    | ok o =>
      cases o with
      | none => rw [hsx] at h; exact absurd h (by simp)
      | some s =>
        rw [hsx] at h
        injection h with h
        obtain ⟨h0, -, rfl⟩ := (shard_ok_iff d x s).mp hsx
        rw [← h]
        exact h0
    | error f => rw [hsx] at h; exact absurd h (by simp)

/-- Concrete threshold-1 dealer over the witness field. -/
def exD1 : Dealer (ZMod P61) := ⟨[.coeffs [7]], 1, 1⟩

theorem C4_next_shard_nonzero_x_witness :
    exD1.next_shard (fun _ => 5) 1 = some (Except.ok ⟨5, [7], 1, 1⟩) ∧
      (⟨5, [7], 1, 1⟩ : Shard (ZMod P61)).x ≠ 0 :=
  ⟨by decide, C4_next_shard_nonzero_x exD1 (fun _ => 5) 1 _ (by decide)⟩

/-- C5 amended: `next_shard` succeeds whenever the first non-zero draw `x`
of the randomness stream makes every polynomial evaluate to a value
different from its constant term (which is automatic when
`threshold = 1`); for other draws the internal assertion
`threshold == 1 || y != poly.constant()` fires, so `next_shard` does not
return a `Shard` on every randomness stream (see the counterexample). -/
theorem C5_next_shard_ok (d : Dealer F) (xr : ℕ → F) (fuel : ℕ) (x : F)
    (hfz : firstNonzero xr fuel = some x)
    (hsafe : ∀ p ∈ d.polys, d.threshold = 1 ∨ p.evaluate x ≠ p.constant) :
    d.next_shard xr fuel =
      some (.ok ⟨x, d.polys.map fun p => p.evaluate x, d.threshold, d.secret_len⟩) := by
  unfold Dealer.next_shard
  rw [hfz, Option.map_some']
  rw [(shard_ok_iff d x _).mpr ⟨firstNonzero_ne_zero hfz, hsafe, rfl⟩]

theorem C5_next_shard_ok_witness :
    firstNonzero (fun _ => (5 : ZMod P61)) 1 = some 5 ∧
      (∀ p ∈ exD1.polys, exD1.threshold = 1 ∨
        p.evaluate 5 ≠ p.constant) ∧
      exD1.next_shard (fun _ => 5) 1 =
        some (.ok ⟨5, exD1.polys.map fun p => p.evaluate 5,
          exD1.threshold, exD1.secret_len⟩) :=
  ⟨by decide, by decide, C5_next_shard_ok exD1 (fun _ => 5) 1 5 (by decide) (by decide)⟩

/-- Dealer produced by `Dealer::new(2, [9])` when the randomness stream
returns zero for every non-constant coefficient: its single polynomial is
`9 + 0·x`, which evaluates to its own constant term at every point. -/
def exD5 : Dealer (ZMod P61) := ⟨[.coeffs [9, 0]], 1, 2⟩

/-- C5 counterexample: the claim "Dealer::next_shard never fails, the
internal assertion can never fire" is false: for the dealer built by
`Dealer::new(2, [9])` with an all-zero coefficient randomness stream, the
first non-zero draw `x = 1` makes the polynomial evaluate to its constant
term, so the assertion `threshold == 1 || y != poly.constant()` fires and
`next_shard` panics instead of returning a shard. -/
theorem C5_counterexample :
    Dealer.new encP 2 [9] zeroRandP = Except.ok exD5 ∧
      exD5.next_shard (fun _ => 1) 1 =
        some (Except.error (Failure.panic PanicKind.constantCollision)) := by
  constructor
  · decide
  · decide

theorem isEmpty_false_of_ne_nil {l : List α} (h : l ≠ []) : l.isEmpty = false := by
  cases l with
  | nil => exact absurd rfl h
  | cons a as => rfl

/-- C6: `Dealer::recover` and `recover_secret` reject any shard set whose
size differs from the shards' stored threshold: for every non-empty,
mutually consistent shard set whose size is not exactly the threshold
(smaller or larger), both functions are rejected at the count check and
recovery does not proceed. -/
theorem C6_exact_count (enc : ByteEnc F) (shards : List (Shard F)) (hne : shards ≠ [])
    (hcons : mutuallyConsistent shards = true)
    (hcount : shards.length ≠ (shards.headD default).threshold) :
    Dealer.recover shards = .error (.panic .wrongShardCount) ∧
      recover_secret enc shards = .error (.panic .wrongShardCount) := by
  have hemp := isEmpty_false_of_ne_nil hne
  constructor
  · rw [Dealer.recover, if_neg (by rw [hemp]; exact Bool.false_ne_true),
      if_neg (not_not_intro hcons), if_pos hcount]
  · rw [recover_secret, if_neg (by rw [hemp]; exact Bool.false_ne_true),
      if_neg (not_not_intro hcons), if_pos hcount]

theorem C6_exact_count_witness :
    ((([⟨1, [5], 2, 1⟩] : List (Shard (ZMod P61))) ≠ []) ∧
      mutuallyConsistent ([⟨1, [5], 2, 1⟩] : List (Shard (ZMod P61))) = true ∧
      ([⟨1, [5], 2, 1⟩] : List (Shard (ZMod P61))).length ≠
        (([⟨1, [5], 2, 1⟩] : List (Shard (ZMod P61))).headD default).threshold) ∧
    Dealer.recover ([⟨1, [5], 2, 1⟩] : List (Shard (ZMod P61))) =
        .error (.panic .wrongShardCount) ∧
      recover_secret encP ([⟨1, [5], 2, 1⟩] : List (Shard (ZMod P61))) =
        .error (.panic .wrongShardCount) :=
  ⟨⟨by decide, by decide, by decide⟩,
    C6_exact_count encP _ (by decide) (by decide) (by decide)⟩

/-- C7: `Dealer::recover` and `recover_secret` require a non-empty shard
set in which every shard agrees with the first on threshold, `ys` length
and `secret_len`; a set violating non-emptiness or one of these
agreements is rejected at the corresponding entry guard — producing a
panic outcome from the guards that precede the interpolation `match`, so
no interpolation arithmetic runs. -/
theorem C7_entry_checks (enc : ByteEnc F) (shards : List (Shard F))
    (h : shards.isEmpty = true ∨ mutuallyConsistent shards = false) :
    (Dealer.recover shards = .error (.panic .noShards) ∧
      recover_secret enc shards = .error (.panic .noShards)) ∨
    (Dealer.recover shards = .error (.panic .inconsistent) ∧
      recover_secret enc shards = .error (.panic .inconsistent)) := by
  cases h with
  | inl hemp =>
    left
    constructor
    · rw [Dealer.recover, if_pos hemp]
    · rw [recover_secret, if_pos hemp]
  | inr hcons =>
    right
    have hne : shards ≠ [] := by
      intro hn
      rw [hn] at hcons
      exact absurd hcons (by simp [mutuallyConsistent])
    have hemp := isEmpty_false_of_ne_nil hne
    constructor
    · rw [Dealer.recover, if_neg (by rw [hemp]; exact Bool.false_ne_true),
        if_pos (by rw [hcons]; exact Bool.false_ne_true)]
    · rw [recover_secret, if_neg (by rw [hemp]; exact Bool.false_ne_true),
        if_pos (by rw [hcons]; exact Bool.false_ne_true)]

theorem C7_entry_checks_witness :
    (mutuallyConsistent ([⟨1, [5], 2, 1⟩, ⟨2, [5], 3, 1⟩] : List (Shard (ZMod P61)))
        = false) ∧
    ((Dealer.recover ([⟨1, [5], 2, 1⟩, ⟨2, [5], 3, 1⟩] : List (Shard (ZMod P61))) =
        .error (.panic .noShards) ∧
      recover_secret encP ([⟨1, [5], 2, 1⟩, ⟨2, [5], 3, 1⟩] : List (Shard (ZMod P61))) =
        .error (.panic .noShards)) ∨
     (Dealer.recover ([⟨1, [5], 2, 1⟩, ⟨2, [5], 3, 1⟩] : List (Shard (ZMod P61))) =
        .error (.panic .inconsistent) ∧
      recover_secret encP ([⟨1, [5], 2, 1⟩, ⟨2, [5], 3, 1⟩] : List (Shard (ZMod P61))) =
        .error (.panic .inconsistent))) :=
  ⟨by decide, C7_entry_checks encP _ (Or.inr (by decide))⟩

/-- C8 amended: every invalid input of the listed kinds (threshold zero at
`Dealer::new`; empty, mutually inconsistent or wrongly sized shard sets at
`Dealer::recover` and `recover_secret`) aborts via an assertion failure —
a panic that terminates the process — before any interpolation arithmetic
runs, rather than being surfaced as a recoverable error value of the
operation's result type; in particular no secret (correct or wrong) is
ever returned for such inputs. -/
theorem C8_panic_on_invalid (enc : ByteEnc F) (s : List ℕ) (rand : ℕ → ℕ → F)
    (shards : List (Shard F))
    (hbad : shards.isEmpty = true ∨ mutuallyConsistent shards = false ∨
      shards.length ≠ (shards.headD default).threshold) :
    Dealer.new enc 0 s rand = .error (.panic .thresholdZero) ∧
      (∃ k, Dealer.recover shards = .error (.panic k)) ∧
      (∃ k, recover_secret enc shards = .error (.panic k)) := by
  refine ⟨by rw [Dealer.new, if_pos rfl], ?_⟩
  cases hemp : shards.isEmpty with
  | true =>
    have := C7_entry_checks enc shards (Or.inl hemp)
    rcases this with ⟨h1, h2⟩ | ⟨h1, h2⟩
    · exact ⟨⟨_, h1⟩, ⟨_, h2⟩⟩
    · exact ⟨⟨_, h1⟩, ⟨_, h2⟩⟩
  | false =>
    cases hcons : mutuallyConsistent shards with
    | false =>
      have := C7_entry_checks enc shards (Or.inr hcons)
      rcases this with ⟨h1, h2⟩ | ⟨h1, h2⟩
      · exact ⟨⟨_, h1⟩, ⟨_, h2⟩⟩
      · exact ⟨⟨_, h1⟩, ⟨_, h2⟩⟩
    | true =>
      have hne : shards ≠ [] := by
        intro hn
        rw [hn] at hemp
        exact absurd hemp (by simp)
      have hcount : shards.length ≠ (shards.headD default).threshold := by
        rcases hbad with hb | hb | hb
        · rw [hemp] at hb; exact absurd hb (by simp)
        · rw [hcons] at hb; exact absurd hb (by simp)
        · exact hb
      have := C6_exact_count enc shards hne hcons hcount
      exact ⟨⟨_, this.1⟩, ⟨_, this.2⟩⟩

theorem C8_panic_on_invalid_witness :
    (([] : List (Shard (ZMod P61))).isEmpty = true) ∧
    (Dealer.new encP 0 [1] zeroRandP = .error (.panic .thresholdZero) ∧
      (∃ k, Dealer.recover ([] : List (Shard (ZMod P61))) = .error (.panic k)) ∧
      (∃ k, recover_secret encP ([] : List (Shard (ZMod P61))) = .error (.panic k))) :=
  ⟨by decide, C8_panic_on_invalid encP [1] zeroRandP [] (Or.inl (by decide))⟩

/-- C8 counterexample: the claim that invalid inputs are "surfaced to the
caller as a recoverable error value of the operation's result type rather
than terminating the process" is false on the code: each listed violation
hits an `assert!` (a panic, modelled as `Failure.panic`, which terminates
the process), not a returned `Err` value (`Failure.err`). The four
conjuncts exhibit one concrete input per violation kind. -/
theorem C8_counterexample :
    Dealer.new encP 0 [1] zeroRandP = Except.error (Failure.panic PanicKind.thresholdZero) ∧
      Dealer.recover ([] : List (Shard (ZMod P61))) =
        Except.error (Failure.panic PanicKind.noShards) ∧
      recover_secret encP ([⟨1, [5], 2, 1⟩, ⟨2, [5], 3, 1⟩] : List (Shard (ZMod P61))) =
        Except.error (Failure.panic PanicKind.inconsistent) ∧
      recover_secret encP ([⟨1, [5], 2, 1⟩] : List (Shard (ZMod P61))) =
        Except.error (Failure.panic PanicKind.wrongShardCount) :=
  ⟨by decide, by decide, by decide, by decide⟩

theorem chunksAux_length_four :
    ∀ (fuel : ℕ) (l : List α), l.length ≤ fuel →
      (chunksAux 4 fuel l).length = (l.length + 3) / 4 := by
  intro fuel
  induction fuel with
  | zero =>
    intro l hl
    have : l = [] := List.eq_nil_of_length_eq_zero (Nat.le_zero.mp hl)
    subst this
    norm_num [chunksAux]
  | succ f ih =>
    intro l hl
    match l with
    | [] => norm_num [chunksAux]
    | a :: as =>
      show ((a :: as).take 4 :: chunksAux 4 f ((a :: as).drop 4)).length = _
      rw [List.length_cons, ih ((a :: as).drop 4)
        (by simp only [List.length_drop, List.length_cons] at hl ⊢; omega)]
      simp only [List.length_drop, List.length_cons]
      omega

theorem chunksOf_length_four (l : List α) :
    (chunksOf 4 l).length = (l.length + 3) / 4 :=
  chunksAux_length_four l.length l le_rfl

theorem new_ok_elim (enc : ByteEnc F) (t : ℕ) (s : List ℕ) (rand : ℕ → ℕ → F)
    (d : Dealer F) (h : Dealer.new enc t s rand = Except.ok d) :
    t ≠ 0 ∧ d.threshold = t ∧ d.secret_len = s.length ∧
      d.polys = (chunksOf 4 s).enum.map (fun ic =>
        .coeffs (enc.fromBytes ic.2 :: (List.range (t - 1)).map (rand ic.1))) := by
  by_cases ht : t = 0
  · rw [Dealer.new, if_pos ht] at h
    exact absurd h (by simp)
  · rw [Dealer.new, if_neg ht] at h
    injection h with h
    rw [← h]
    exact ⟨ht, rfl, rfl, rfl⟩

theorem consistentWith_eq_true {a b c : ℕ} {sh : Shard F} :
    consistentWith a b c sh = true ↔
      sh.threshold = a ∧ sh.ys.length = b ∧ sh.secret_len = c := by
  simp [consistentWith, and_assoc]

/-- C9: every shard produced by `Dealer::shard` (hence by `next_shard`)
inherits the dealer's metadata exactly — threshold, `secret_len`, and one
`y` per dealer polynomial; for a dealer built by `Dealer::new` the
polynomial count is `⌈secret_len / 4⌉`; consequently any non-empty set of
shards obtained from one dealer passes the mutual-consistency check of
`recover`/`recover_secret`. -/
theorem C9_shard_metadata (enc : ByteEnc F) (t : ℕ) (s : List ℕ) (rand : ℕ → ℕ → F)
    (d : Dealer F) (hnew : Dealer.new enc t s rand = Except.ok d)
    (shards : List (Shard F)) (hgen : ∀ sh ∈ shards, ∃ x, d.shard x = Except.ok (some sh)) :
    (∀ sh ∈ shards, sh.threshold = d.threshold ∧ sh.secret_len = d.secret_len ∧
      sh.ys.length = d.polys.length) ∧
    d.polys.length = (d.secret_len + 3) / 4 ∧
    (shards ≠ [] → mutuallyConsistent shards = true) := by
  obtain ⟨-, -, hlen, hpolys⟩ := new_ok_elim enc t s rand d hnew
  have hmeta : ∀ sh ∈ shards, sh.threshold = d.threshold ∧ sh.secret_len = d.secret_len ∧
      sh.ys.length = d.polys.length := by
    intro sh hsh
    obtain ⟨x, hx⟩ := hgen sh hsh
    obtain ⟨-, -, rfl⟩ := (shard_ok_iff d x sh).mp hx
    exact ⟨rfl, rfl, by rw [List.length_map]⟩
  refine ⟨hmeta, ?_, ?_⟩
  · rw [hpolys, List.length_map, List.enum_length, chunksOf_length_four, hlen]
  · intro hne
    match shards, hne with
    | a :: rest, _ =>
      have ha := hmeta a (by simp)
      rw [mutuallyConsistent, List.all_eq_true]
      intro sh hsh
      have hs := hmeta sh hsh
      rw [consistentWith_eq_true, List.headD_cons]
      exact ⟨hs.1.trans ha.1.symm, hs.2.2.trans ha.2.2.symm, hs.2.1.trans ha.2.1.symm⟩

theorem C9_shard_metadata_witness :
    Dealer.new encP 1 [7] zeroRandP = Except.ok exD1 ∧
      (∀ sh ∈ ([⟨5, [7], 1, 1⟩] : List (Shard (ZMod P61))),
        ∃ x, exD1.shard x = Except.ok (some sh)) ∧
      ((∀ sh ∈ ([⟨5, [7], 1, 1⟩] : List (Shard (ZMod P61))),
          sh.threshold = exD1.threshold ∧ sh.secret_len = exD1.secret_len ∧
          sh.ys.length = exD1.polys.length) ∧
        exD1.polys.length = (exD1.secret_len + 3) / 4 ∧
        (([⟨5, [7], 1, 1⟩] : List (Shard (ZMod P61))) ≠ [] →
          mutuallyConsistent ([⟨5, [7], 1, 1⟩] : List (Shard (ZMod P61))) = true)) := by
  have hgen : ∀ sh ∈ ([⟨5, [7], 1, 1⟩] : List (Shard (ZMod P61))),
      ∃ x, exD1.shard x = Except.ok (some sh) := by
    intro sh hsh
    rw [List.mem_singleton] at hsh
    subst hsh
    exact ⟨5, by decide⟩
  exact ⟨by decide, hgen,
    C9_shard_metadata encP 1 [7] zeroRandP exD1 (by decide) _ hgen⟩

theorem recover_ok_elim (shards : List (Shard F)) (d2 : Dealer F)
    (h : Dealer.recover shards = Except.ok d2) :
    shards ≠ [] ∧ mutuallyConsistent shards = true ∧
      shards.length = (shards.headD default).threshold ∧
      d2.threshold = (shards.headD default).threshold ∧
      d2.secret_len = (shards.headD default).secret_len ∧
      d2.polys.length = (shards.headD default).ys.length ∧
      mapE (fun i => baryRecover ((shards.headD default).threshold - 1)
          (shards.map fun s => (s.x, s.ys.getD i 0)))
        (List.range (shards.headD default).ys.length) = .ok d2.polys := by
  cases hemp : shards.isEmpty with
  | true =>
    rw [Dealer.recover, if_pos hemp] at h
    exact absurd h (by simp)
  | false =>
    cases hcons : mutuallyConsistent shards with
    | false =>
      rw [Dealer.recover, if_neg (by rw [hemp]; exact Bool.false_ne_true),
        if_pos (by rw [hcons]; exact Bool.false_ne_true)] at h
      exact absurd h (by simp)
    | true =>
      by_cases hcount : shards.length ≠ (shards.headD default).threshold
      · rw [Dealer.recover, if_neg (by rw [hemp]; exact Bool.false_ne_true),
          if_neg (not_not_intro hcons), if_pos hcount] at h
        exact absurd h (by simp)
      · rw [Dealer.recover, if_neg (by rw [hemp]; exact Bool.false_ne_true),
          if_neg (not_not_intro hcons), if_neg hcount] at h
        push_neg at hcount
        have hne : shards ≠ [] := by
          intro hn
          rw [hn] at hemp
          exact absurd hemp (by simp)
        cases hm : mapE (fun i => baryRecover ((shards.headD default).threshold - 1)
            (shards.map fun s => (s.x, s.ys.getD i 0)))
            (List.range (shards.headD default).ys.length) with
        | error e =>
          rw [hm] at h
          exact absurd h (by simp)
        | ok polys =>
          rw [hm] at h
          injection h with h
          rw [← h]
          refine ⟨hne, rfl, hcount, rfl, rfl, ?_, rfl⟩
          show polys.length = _
          rw [mapE_ok_length _ _ _ hm, List.length_range]

/-- C10: when `Dealer::recover` succeeds, the returned dealer's threshold
and `secret_len` equal the common threshold and `secret_len` of the input
shards and its polynomial count equals their common `ys` length; and for
any dealer, `secret()` returns exactly `min(secret_len, 4·polys.length)`
bytes (hence exactly `secret_len` bytes whenever the polynomial count
covers `secret_len`). -/
theorem C10_recover_metadata (enc : ByteEnc F) (shards : List (Shard F)) (d2 : Dealer F)
    (hrec : Dealer.recover shards = Except.ok d2) :
    (d2.threshold = (shards.headD default).threshold ∧
     d2.secret_len = (shards.headD default).secret_len ∧
     d2.polys.length = (shards.headD default).ys.length) ∧
    ∀ d : Dealer F, (d.secret enc).length = min d.secret_len (4 * d.polys.length) := by
  obtain ⟨-, -, -, h1, h2, h3, -⟩ := recover_ok_elim shards d2 hrec
  refine ⟨⟨h1, h2, h3⟩, fun d => ?_⟩
  rw [Dealer.secret, List.length_take, List.length_flatten, List.map_map]
  have hconst : (List.length ∘ fun p : EvalPoly F => enc.toBytes p.constant) =
      fun _ => 4 := by
    funext p
    exact enc.toBytes_length _
  rw [hconst, List.map_const', List.sum_replicate, smul_eq_mul, Nat.mul_comm]

/-- Concrete successful recovery input/output for the C10 witness: a
single threshold-1 shard and the dealer rebuilt from it (its polynomial
kept in symbolic barycentric form). -/
def exD10 : Dealer (ZMod P61) :=
  ⟨[.bary [((5 : ZMod P61), (7 : ZMod P61))]
      (nodeWeights [((5 : ZMod P61), (7 : ZMod P61))])], 1, 1⟩

theorem C10_recover_metadata_witness :
    Dealer.recover ([⟨5, [7], 1, 1⟩] : List (Shard (ZMod P61))) = Except.ok exD10 ∧
      ((exD10.threshold =
          ((([⟨5, [7], 1, 1⟩] : List (Shard (ZMod P61)))).headD default).threshold ∧
        exD10.secret_len =
          ((([⟨5, [7], 1, 1⟩] : List (Shard (ZMod P61)))).headD default).secret_len ∧
        exD10.polys.length =
          ((([⟨5, [7], 1, 1⟩] : List (Shard (ZMod P61)))).headD default).ys.length) ∧
      ∀ d : Dealer (ZMod P61),
        (d.secret encP).length = min d.secret_len (4 * d.polys.length)) :=
  ⟨rfl, C10_recover_metadata encP _ exD10 rfl⟩

/-- Mathlib polynomial denoted by a coefficient list. -/
noncomputable def toPoly (c : List F) : Polynomial F :=
  ∑ i in Finset.range c.length, Polynomial.C (c.getD i 0) * Polynomial.X ^ i

theorem evalCoeffs_eq_getD (c : List F) (x : F) :
    evalCoeffs c x = ∑ i in Finset.range c.length, c.getD i 0 * x ^ i := by
  rw [evalCoeffs, ← Fin.sum_univ_eq_sum_range (fun i => c.getD i 0 * x ^ i) c.length]
  refine Finset.sum_congr rfl fun i _ => ?_
  rw [List.getD_eq_get c 0 i.2]

theorem eval_toPoly (c : List F) (x : F) : (toPoly c).eval x = evalCoeffs c x := by
  rw [toPoly, Polynomial.eval_finset_sum, evalCoeffs_eq_getD]
  refine Finset.sum_congr rfl fun i _ => ?_
  rw [Polynomial.eval_mul, Polynomial.eval_C, Polynomial.eval_pow, Polynomial.eval_X]

theorem evalCoeffs_zero (c : List F) : evalCoeffs c 0 = c.headD 0 := by
  rw [evalCoeffs_eq_getD]
  cases c with
  | nil => simp
  | cons a as =>
    rw [List.length_cons, Finset.sum_range_succ']
    simp

theorem degree_toPoly_lt (c : List F) : (toPoly c).degree < (c.length : WithBot ℕ) := by
  apply lt_of_le_of_lt (Polynomial.degree_sum_le _ _)
  rw [Finset.sup_lt_iff (WithBot.bot_lt_coe _)]
  intro i hi
  apply lt_of_le_of_lt (Polynomial.degree_C_mul_X_pow_le i (c.getD i 0))
  exact_mod_cast Finset.mem_range.mp hi

theorem pts_fst_injective (pts : List (F × F)) (hnd : (pts.map Prod.fst).Nodup) :
    Function.Injective fun i : Fin pts.length => (pts.get i).1 := by
  have hinj := List.nodup_iff_injective_get.mp hnd
  have hlm : pts.length = (pts.map Prod.fst).length := (List.length_map pts Prod.fst).symm
  have key : ∀ k : Fin pts.length, (pts.map Prod.fst).get (Fin.cast hlm k) = (pts.get k).1 := by
    intro k
    simp [List.get_map]
  intro i j hij
  have h2 : (pts.map Prod.fst).get (Fin.cast hlm i) = (pts.map Prod.fst).get (Fin.cast hlm j) := by
    rw [key, key]
    exact hij
  have h3 := hinj h2
  have h4 := congrArg Fin.val h3
  exact Fin.ext h4

/-- Exactness of the spec's Lagrange constant-term formula: on any list of
sample points of the coefficient polynomial `c` with pairwise distinct
x-values, exactly `c.length` many, the formula
Σᵢ yᵢ · Πⱼ≠ᵢ (0 - xⱼ)/(xᵢ - xⱼ) recovers the constant term. -/
theorem lagrangeSum_exact (c : List F) (pts : List (F × F))
    (hlen : pts.length = c.length)
    (hnd : (pts.map Prod.fst).Nodup)
    (hval : ∀ p ∈ pts, p.2 = evalCoeffs c p.1) :
    (∑ i : Fin pts.length, (pts.get i).2 * ∏ j in Finset.univ.erase i,
      (0 - (pts.get j).1) / ((pts.get i).1 - (pts.get j).1)) = c.headD 0 := by
  classical
  have hinj : Function.Injective fun i : Fin pts.length => (pts.get i).1 :=
    pts_fst_injective pts hnd
  have hinjOn : Set.InjOn (fun i : Fin pts.length => (pts.get i).1)
      (Finset.univ : Finset (Fin pts.length)) := fun a _ b _ h => hinj h
  have hdeg : (toPoly c).degree < ((Finset.univ : Finset (Fin pts.length)).card : ℕ) := by
    rw [Finset.card_univ, Fintype.card_fin, hlen]
    exact degree_toPoly_lt c
  have heval : ∀ i ∈ (Finset.univ : Finset (Fin pts.length)),
      (toPoly c).eval ((fun i : Fin pts.length => (pts.get i).1) i) =
        (fun i : Fin pts.length => (pts.get i).2) i := by
    intro i _
    rw [eval_toPoly]
    exact (hval (pts.get i) (pts.get_mem i.1 i.2)).symm
  have hfp : toPoly c = Lagrange.interpolate Finset.univ
      (fun i : Fin pts.length => (pts.get i).1) (fun i : Fin pts.length => (pts.get i).2) :=
    Lagrange.eq_interpolate_of_eval_eq _ hinjOn hdeg heval
  have hev : (Lagrange.interpolate Finset.univ
      (fun i : Fin pts.length => (pts.get i).1)
      (fun i : Fin pts.length => (pts.get i).2)).eval 0 =
      ∑ i : Fin pts.length, (pts.get i).2 * ∏ j in Finset.univ.erase i,
        (0 - (pts.get j).1) / ((pts.get i).1 - (pts.get j).1) := by
    rw [Lagrange.interpolate_apply, Polynomial.eval_finset_sum]
    refine Finset.sum_congr rfl fun i _ => ?_
    rw [Polynomial.eval_mul, Polynomial.eval_C]
    congr 1
    rw [Lagrange.basis, Polynomial.eval_prod]
    refine Finset.prod_congr rfl fun j _ => ?_
    rw [Lagrange.basisDivisor, Polynomial.eval_mul, Polynomial.eval_C,
      Polynomial.eval_sub, Polynomial.eval_X, Polynomial.eval_C, div_eq_mul_inv,
      mul_comm]
  rw [← hev, ← hfp, eval_toPoly, evalCoeffs_zero]

/-- Shard minted by a dealer at a given non-zero, non-colliding `x`. -/
def mkShard (d : Dealer F) (x : F) : Shard F :=
  ⟨x, d.polys.map fun p => p.evaluate x, d.threshold, d.secret_len⟩

theorem forall₂_shard_eq (d : Dealer F) (xs : List F) (shards : List (Shard F))
    (hgen : List.Forall₂ (fun x sh => d.shard x = Except.ok (some sh)) xs shards) :
    shards = xs.map (mkShard d) := by
  induction hgen with
  | nil => rfl
  | @cons x sh xsr shardsr h1 h2 ih =>
    obtain ⟨-, -, rfl⟩ := (shard_ok_iff d x sh).mp h1
    rw [List.map_cons, ← ih]
    rfl

theorem mapE_ok_of_forall (f : α → Except ε β) (g : α → β) (l : List α)
    (h : ∀ a ∈ l, f a = .ok (g a)) : mapE f l = .ok (l.map g) := by
  induction l with
  | nil => rfl
  | cons a as ih =>
    rw [mapE, h a (by simp), ih (fun b hb => h b (by simp [hb]))]
    rfl

theorem map_range_getD (l : List α) (dflt : α) (g : α → β) :
    (List.range l.length).map (fun i => g (l.getD i dflt)) = l.map g := by
  apply List.ext_get
  · rw [List.length_map, List.length_range, List.length_map]
  · intro n h1 h2
    rw [List.get_map, List.get_map]
    have hn : n < l.length := by
      rw [List.length_map] at h2
      exact h2
    have hr : (List.range l.length).get ⟨n, by rwa [List.length_range]⟩ = n := by
      simp [List.get_range]
    simp only [hr]
    rw [List.getD_eq_get l dflt hn]

theorem mutuallyConsistent_mkShard (d : Dealer F) (x0 : F) (xsr : List F) :
    mutuallyConsistent (mkShard d x0 :: xsr.map (mkShard d)) = true := by
  rw [mutuallyConsistent, List.all_eq_true]
  intro sh hsh
  rw [List.headD_cons]
  rcases List.mem_cons.mp hsh with rfl | hmem
  · rw [consistentWith_eq_true]
    exact ⟨rfl, rfl, rfl⟩
  · obtain ⟨x, -, rfl⟩ := List.mem_map.mp hmem
    rw [consistentWith_eq_true]
    refine ⟨rfl, ?_, rfl⟩
    show (d.polys.map _).length = (d.polys.map _).length
    rw [List.length_map, List.length_map]

/-- C2: for every threshold `t ≥ 1` and byte sequence `s`, if exactly `t`
shards with pairwise distinct `x` values are produced from
`Dealer::new(t, s)` (each a successful `shard` output, as `next_shard`
yields), then `recover_secret` applied to those `t` shards succeeds and
returns `s`. -/
theorem C2_threshold_sufficiency (enc : ByteEnc F) (t : ℕ) (ht : 1 ≤ t)
    (s : List ℕ) (hs : ∀ b ∈ s, b < 256) (rand : ℕ → ℕ → F) (d : Dealer F)
    (hnew : Dealer.new enc t s rand = Except.ok d)
    (xs : List F) (shards : List (Shard F))
    (hxlen : xs.length = t) (hxnd : xs.Nodup)
    (hgen : List.Forall₂ (fun x sh => d.shard x = Except.ok (some sh)) xs shards) :
    recover_secret enc shards = Except.ok s := by
  obtain ⟨ht0, hthr, hslen, hpolys⟩ := new_ok_elim enc t s rand d hnew
  have hshards := forall₂_shard_eq d xs shards hgen
  subst hshards
  obtain ⟨x0, xsr, rfl⟩ : ∃ x0 xsr, xs = x0 :: xsr := by
    cases xs with
    | nil =>
      exfalso
      rw [← hxlen] at ht
      exact absurd ht (by simp)
    | cons a l => exact ⟨a, l, rfl⟩
  rw [List.map_cons]
  have hcons := mutuallyConsistent_mkShard d x0 xsr
  have hcnt : (mkShard d x0 :: xsr.map (mkShard d)).length =
      ((mkShard d x0 :: xsr.map (mkShard d)).headD default).threshold := by
    rw [List.headD_cons, List.length_cons, List.length_map]
    show xsr.length + 1 = d.threshold
    rw [hthr, ← hxlen, List.length_cons]
  rw [recover_secret, if_neg (by simp), if_neg (not_not_intro hcons),
    if_neg (not_not_intro hcnt), List.headD_cons]
  have hNlen : (mkShard d x0).ys.length = d.polys.length := by
    show (d.polys.map _).length = _
    rw [List.length_map]
  have hclen : (chunksOf 4 s).length = d.polys.length := by
    rw [hpolys, List.length_map, List.enum_length]
  have hkey : ∀ i ∈ List.range (mkShard d x0).ys.length,
      lagrange_constant ((mkShard d x0).threshold - 1)
        ((mkShard d x0 :: xsr.map (mkShard d)).map fun s' => (s'.x, s'.ys.getD i 0)) =
      .ok (enc.fromBytes ((chunksOf 4 s).getD i [])) := by
    intro i hi
    rw [List.mem_range, hNlen] at hi
    have hich : i < (chunksOf 4 s).length := by rw [hclen]; exact hi
    -- the i-th polynomial of the dealer, as a coefficient list
    have hien : i < (chunksOf 4 s).enum.length := by
      rw [List.enum_length]
      exact hich
    have hpi : d.polys.getD i (.coeffs []) =
        .coeffs (enc.fromBytes ((chunksOf 4 s).getD i []) ::
          (List.range (t - 1)).map (rand i)) := by
      rw [hpolys]
      have hb : i < ((chunksOf 4 s).enum.map (fun ic =>
          (EvalPoly.coeffs (enc.fromBytes ic.2 ::
            (List.range (t - 1)).map (rand ic.1)) : EvalPoly F))).length := by
        rw [List.length_map, List.enum_length]
        exact hich
      rw [List.getD_eq_get _ _ hb, List.get_map, List.getD_eq_get _ [] hich]
      have he : (chunksOf 4 s).enum.get ⟨i, hien⟩ =
          (i, (chunksOf 4 s).get ⟨i, hich⟩) := by
        rw [List.get_enum]
        rfl
      show (fun ic => (EvalPoly.coeffs (enc.fromBytes ic.2 ::
        (List.range (t - 1)).map (rand ic.1)) : EvalPoly F))
          ((chunksOf 4 s).enum.get ⟨i, hien⟩) = _
      rw [he]
    have hgetD : ∀ x : F, ((d.polys.map fun p => p.evaluate x).getD i 0) =
        (d.polys.getD i (.coeffs [])).evaluate x := by
      intro x
      rw [List.getD_eq_get _ 0 (by rw [List.length_map]; exact hi), List.get_map,
        List.getD_eq_get _ _ hi]
    -- rewrite the sample points as a map over the x values
    have hpts : ((mkShard d x0 :: xsr.map (mkShard d)).map
          fun s' => (s'.x, s'.ys.getD i 0)) =
        (x0 :: xsr).map fun x => (x, evalCoeffs (enc.fromBytes ((chunksOf 4 s).getD i []) ::
          (List.range (t - 1)).map (rand i)) x) := by
      rw [← List.map_cons (mkShard d) x0 xsr, List.map_map]
      refine List.map_congr_left fun x hx => ?_
      show (x, (d.polys.map fun p => p.evaluate x).getD i 0) = _
      rw [hgetD x, hpi]
      rfl
    rw [hpts]
    set ci : List F := enc.fromBytes ((chunksOf 4 s).getD i []) ::
      (List.range (t - 1)).map (rand i) with hci
    have hptslen : ((x0 :: xsr).map fun x => (x, evalCoeffs ci x)).length = ci.length := by
      rw [List.length_map, List.length_cons, hci, List.length_cons, List.length_map,
        List.length_range]
      have := hxlen
      rw [List.length_cons] at this
      omega
    have hfst : (((x0 :: xsr).map fun x => (x, evalCoeffs ci x)).map Prod.fst) =
        x0 :: xsr := by
      rw [List.map_map]
      exact List.map_id _
    have hthr1 : (mkShard d x0).threshold - 1 + 1 = ci.length := by
      show d.threshold - 1 + 1 = ci.length
      rw [hthr, hci, List.length_cons, List.length_map, List.length_range]
    rw [lagrange_constant,
      if_neg (not_not_intro (by rw [hptslen, hthr1])),
      if_neg (not_not_intro (by rw [hfst]; exact hxnd))]
    congr 1
    have := lagrangeSum_exact ci ((x0 :: xsr).map fun x => (x, evalCoeffs ci x))
      hptslen (by rw [hfst]; exact hxnd)
      (by
        intro p hp
        obtain ⟨x, -, rfl⟩ := List.mem_map.mp hp
        rfl)
    rw [this, hci, List.headD_cons]
  have hmapE := mapE_ok_of_forall _ (fun i => enc.fromBytes ((chunksOf 4 s).getD i []))
    (List.range (mkShard d x0).ys.length) hkey
  rw [hmapE]
  show Except.ok _ = Except.ok s
  congr 1
  have hrange : List.range (mkShard d x0).ys.length = List.range (chunksOf 4 s).length := by
    rw [hNlen, hclen]
  rw [hrange, map_range_getD (chunksOf 4 s) [] (fun c => enc.fromBytes c), List.map_map]
  show ((chunksOf 4 s).map fun c => enc.toBytes (enc.fromBytes c)).flatten.take
    d.secret_len = s
  rw [hslen, chunksOf]
  exact chunks_enc_roundtrip enc s.length s le_rfl hs

/-- Coefficient-randomness stream returning one for every draw. -/
def oneRandP : ℕ → ℕ → ZMod P61 := fun _ _ => 1

/-- Dealer produced by `Dealer::new(2, [7])` under `oneRandP`: one
polynomial `7 + x`. -/
def exD2w : Dealer (ZMod P61) := ⟨[.coeffs [7, 1]], 1, 2⟩

theorem C2_threshold_sufficiency_witness :
    (1 ≤ 2) ∧ (∀ b ∈ [7], b < 256) ∧
      Dealer.new encP 2 [7] oneRandP = Except.ok exD2w ∧
      ([(1 : ZMod P61), 2].length = 2) ∧ ([(1 : ZMod P61), 2]).Nodup ∧
      List.Forall₂ (fun x sh => exD2w.shard x = Except.ok (some sh))
        [(1 : ZMod P61), 2] [⟨1, [8], 2, 1⟩, ⟨2, [9], 2, 1⟩] ∧
      recover_secret encP ([⟨1, [8], 2, 1⟩, ⟨2, [9], 2, 1⟩] : List (Shard (ZMod P61))) =
        Except.ok [7] := by
  have hgen : List.Forall₂ (fun x sh => exD2w.shard x = Except.ok (some sh))
      [(1 : ZMod P61), 2] ([⟨1, [8], 2, 1⟩, ⟨2, [9], 2, 1⟩] : List (Shard (ZMod P61))) :=
    List.Forall₂.cons (by decide) (List.Forall₂.cons (by decide) List.Forall₂.nil)
  exact ⟨by norm_num, by decide, by decide, by decide, by decide, hgen,
    C2_threshold_sufficiency encP 2 (by norm_num) [7] (by decide) oneRandP exD2w (by decide)
      [1, 2] [⟨1, [8], 2, 1⟩, ⟨2, [9], 2, 1⟩] (by decide) (by decide) hgen⟩

theorem baryEval_find_some {pts : List (F × F)} {ws : List F} {x : F} {p : F × F}
    (h : pts.find? (fun q => decide (q.1 = x)) = some p) :
    baryEval pts ws x = p.2 := by
  unfold baryEval
  rw [h]

theorem baryEval_find_none {pts : List (F × F)} {ws : List F} {x : F}
    (h : pts.find? (fun q => decide (q.1 = x)) = none) :
    baryEval pts ws x =
      (∑ i : Fin pts.length, ws.getD i 0 / (x - (pts.get i).1) * (pts.get i).2) /
        ∑ i : Fin pts.length, ws.getD i 0 / (x - (pts.get i).1) := by
  unfold baryEval
  rw [h]

/-- Exactness of the spec's barycentric evaluation: on the samples of the
coefficient polynomial `c` at pairwise distinct x-values, exactly
`c.length` many, the reconstructed barycentric object agrees with the
polynomial at every query point — at a node through the special case,
elsewhere through the two-sum barycentric formula. -/
theorem baryEval_exact (c : List F) (pts : List (F × F))
    (hlen : pts.length = c.length)
    (hnd : (pts.map Prod.fst).Nodup)
    (hval : ∀ p ∈ pts, p.2 = evalCoeffs c p.1)
    (hne : pts ≠ []) (x : F) :
    baryEval pts (nodeWeights pts) x = evalCoeffs c x := by
  classical
  have hinj : Function.Injective fun i : Fin pts.length => (pts.get i).1 :=
    pts_fst_injective pts hnd
  have hinjOn : Set.InjOn (fun i : Fin pts.length => (pts.get i).1)
      (Finset.univ : Finset (Fin pts.length)) := fun a _ b _ h => hinj h
  have hdeg : (toPoly c).degree < ((Finset.univ : Finset (Fin pts.length)).card : ℕ) := by
    rw [Finset.card_univ, Fintype.card_fin, hlen]
    exact degree_toPoly_lt c
  have heval : ∀ i ∈ (Finset.univ : Finset (Fin pts.length)),
      (toPoly c).eval ((fun i : Fin pts.length => (pts.get i).1) i) =
        (fun i : Fin pts.length => (pts.get i).2) i := by
    intro i _
    rw [eval_toPoly]
    exact (hval (pts.get i) (pts.get_mem i.1 i.2)).symm
  have hfp : toPoly c = Lagrange.interpolate Finset.univ
      (fun i : Fin pts.length => (pts.get i).1) (fun i : Fin pts.length => (pts.get i).2) :=
    Lagrange.eq_interpolate_of_eval_eq _ hinjOn hdeg heval
  cases hfind : pts.find? (fun q => decide (q.1 = x)) with
  | some p =>
    have hpx : p.1 = x := by
      have h1 := List.find?_some hfind
      simpa using h1
    rw [baryEval_find_some hfind, hval p (List.mem_of_find?_eq_some hfind), hpx]
  | none =>
    have hnx : ∀ i : Fin pts.length, x ≠ (pts.get i).1 := by
      intro i hc
      have h1 := List.find?_eq_none.mp hfind (pts.get i) (pts.get_mem i.1 i.2)
      simp at h1
      exact h1 hc.symm
    rw [baryEval_find_none hfind]
    have hw : ∀ i : Fin pts.length, (nodeWeights pts).getD i 0 =
        Lagrange.nodalWeight Finset.univ (fun j : Fin pts.length => (pts.get j).1) i := by
      intro i
      rw [nodeWeights, List.getD_eq_get _ 0 (by rw [List.length_ofFn]; exact i.2),
        List.get_ofFn]
      show (∏ j in Finset.univ.erase i, ((pts.get i).1 - (pts.get j).1))⁻¹ = _
      rw [Lagrange.nodalWeight, Finset.prod_inv_distrib]
    have hsum1 : (∑ i : Fin pts.length,
        (nodeWeights pts).getD i 0 / (x - (pts.get i).1) * (pts.get i).2) =
        ∑ i : Fin pts.length,
          Lagrange.nodalWeight Finset.univ (fun j : Fin pts.length => (pts.get j).1) i *
            (x - (pts.get i).1)⁻¹ * (pts.get i).2 :=
      Finset.sum_congr rfl fun i _ => by rw [hw i, div_eq_mul_inv]
    have hsum2 : (∑ i : Fin pts.length,
        (nodeWeights pts).getD i 0 / (x - (pts.get i).1)) =
        ∑ i : Fin pts.length,
          Lagrange.nodalWeight Finset.univ (fun j : Fin pts.length => (pts.get j).1) i *
            (x - (pts.get i).1)⁻¹ :=
      Finset.sum_congr rfl fun i _ => by rw [hw i, div_eq_mul_inv]
    have hnonempty : (Finset.univ : Finset (Fin pts.length)).Nonempty :=
      ⟨⟨0, List.length_pos.mpr hne⟩, Finset.mem_univ _⟩
    rw [hsum1, hsum2,
      ← Lagrange.eval_interpolate_not_at_node' _ hinjOn hnonempty (fun i _ => hnx i),
      ← hfp, eval_toPoly]

theorem forall₂_map_evaluate (x : F) {l1 l2 : List (EvalPoly F)}
    (h : List.Forall₂ (fun p q => (∀ y : F, p.evaluate y = q.evaluate y) ∧
      p.constant = q.constant) l1 l2) :
    l1.map (fun p => p.evaluate x) = l2.map (fun p => p.evaluate x) := by
  induction h with
  | nil => rfl
  | cons h1 h2 ih => rw [List.map_cons, List.map_cons, ih, h1.1 x]

theorem forall₂_all_assert {t1 t2 : ℕ} (ht : t1 = t2) (x : F) {l1 l2 : List (EvalPoly F)}
    (h : List.Forall₂ (fun p q => (∀ y : F, p.evaluate y = q.evaluate y) ∧
      p.constant = q.constant) l1 l2) :
    (l1.all fun p => decide (t1 = 1 ∨ p.evaluate x ≠ p.constant)) =
      (l2.all fun p => decide (t2 = 1 ∨ p.evaluate x ≠ p.constant)) := by
  induction h with
  | nil => rfl
  | cons h1 h2 ih =>
    rw [List.all_cons, List.all_cons, ih]
    congr 1
    rw [decide_eq_decide, ht, h1.1 x, h1.2]

theorem shard_congr (d d2 : Dealer F) (hthr : d.threshold = d2.threshold)
    (hsl : d.secret_len = d2.secret_len)
    (hpq : List.Forall₂ (fun p q => (∀ y : F, p.evaluate y = q.evaluate y) ∧
      p.constant = q.constant) d.polys d2.polys) (x : F) :
    d.shard x = d2.shard x := by
  unfold Dealer.shard
  by_cases h0 : x = 0
  · rw [if_pos h0, if_pos h0]
  · rw [if_neg h0, if_neg h0]
    rw [forall₂_all_assert hthr x hpq, forall₂_map_evaluate x hpq, hthr, hsl]

theorem dealer_new_poly_getD (enc : ByteEnc F) {t : ℕ} {s : List ℕ} {rand : ℕ → ℕ → F}
    {d : Dealer F} (hnew : Dealer.new enc t s rand = Except.ok d)
    (i : ℕ) (hi : i < d.polys.length) :
    d.polys.getD i (.coeffs []) =
      .coeffs (enc.fromBytes ((chunksOf 4 s).getD i []) ::
        (List.range (t - 1)).map (rand i)) := by
  obtain ⟨-, -, -, hpolys⟩ := new_ok_elim enc t s rand d hnew
  have hich : i < (chunksOf 4 s).length := by
    rw [hpolys, List.length_map, List.enum_length] at hi
    exact hi
  have hien : i < (chunksOf 4 s).enum.length := by
    rw [List.enum_length]
    exact hich
  rw [hpolys]
  have hb : i < ((chunksOf 4 s).enum.map (fun ic =>
      (EvalPoly.coeffs (enc.fromBytes ic.2 ::
        (List.range (t - 1)).map (rand ic.1)) : EvalPoly F))).length := by
    rw [List.length_map]
    exact hien
  rw [List.getD_eq_get _ _ hb, List.get_map, List.getD_eq_get _ [] hich]
  have he : (chunksOf 4 s).enum.get ⟨i, hien⟩ =
      (i, (chunksOf 4 s).get ⟨i, hich⟩) := by
    rw [List.get_enum]
    rfl
  show (fun ic => (EvalPoly.coeffs (enc.fromBytes ic.2 ::
    (List.range (t - 1)).map (rand ic.1)) : EvalPoly F))
      ((chunksOf 4 s).enum.get ⟨i, hien⟩) = _
  rw [he]

theorem evals_getD (d : Dealer F) (i : ℕ) (hi : i < d.polys.length) (x : F) :
    (d.polys.map fun p => p.evaluate x).getD i 0 =
      (d.polys.getD i (.coeffs [])).evaluate x := by
  rw [List.getD_eq_get _ 0 (by rw [List.length_map]; exact hi), List.get_map,
    List.getD_eq_get _ _ hi]

theorem ptsFn_eq (d : Dealer F) (x0 : F) (xsr : List F) (i : ℕ)
    (hi : i < d.polys.length) :
    ((mkShard d x0 :: xsr.map (mkShard d)).map fun s' => (s'.x, s'.ys.getD i 0)) =
      (x0 :: xsr).map fun x => (x, (d.polys.getD i (.coeffs [])).evaluate x) := by
  rw [← List.map_cons (mkShard d) x0 xsr, List.map_map]
  refine List.map_congr_left fun x hx => ?_
  show (x, (d.polys.map fun p => p.evaluate x).getD i 0) = _
  rw [evals_getD d i hi x]

/-- C3 amended: for every threshold `t ≥ 1` and secret `s`, if
`D2 = Dealer::recover(S)` where `S` is a set of exactly `t` distinct-x
shards generated from `D1 = Dealer::new(t, s)`, then `D1.shard` and
`D2.shard` agree as computations at every field element `x`: both return
no shard at `x = ZERO`, and at every non-zero `x` both produce the same
outcome — the same shard, or the same constant-collision assertion
failure (the claim's "structurally equal shards for every non-zero x"
fails at assertion-triggering points; see the counterexample). -/
theorem C3_recovered_dealer_equiv (enc : ByteEnc F) (t : ℕ) (ht : 1 ≤ t)
    (s : List ℕ) (rand : ℕ → ℕ → F) (d : Dealer F)
    (hnew : Dealer.new enc t s rand = Except.ok d)
    (xs : List F) (shards : List (Shard F))
    (hxlen : xs.length = t) (hxnd : xs.Nodup)
    (hgen : List.Forall₂ (fun x sh => d.shard x = Except.ok (some sh)) xs shards)
    (d2 : Dealer F) (hrec : Dealer.recover shards = Except.ok d2) :
    (∀ x : F, d.shard x = d2.shard x) ∧
      d.shard 0 = Except.ok none ∧ d2.shard 0 = Except.ok none := by
  obtain ⟨ht0, hthr, hslen, hpolysd⟩ := new_ok_elim enc t s rand d hnew
  have hshards := forall₂_shard_eq d xs shards hgen
  subst hshards
  obtain ⟨x0, xsr, rfl⟩ : ∃ x0 xsr, xs = x0 :: xsr := by
    cases xs with
    | nil =>
      exfalso
      rw [← hxlen] at ht
      exact absurd ht (by simp)
    | cons a l => exact ⟨a, l, rfl⟩
  rw [List.map_cons] at hrec
  obtain ⟨-, -, -, h2thr, h2sl, -, hmapE⟩ := recover_ok_elim _ d2 hrec
  rw [List.headD_cons] at h2thr h2sl hmapE
  have hN : (mkShard d x0).ys.length = d.polys.length := by
    show (d.polys.map _).length = _
    rw [List.length_map]
  have hthr2 : d.threshold = d2.threshold := h2thr.symm
  have hsl2 : d.secret_len = d2.secret_len := h2sl.symm
  have hxlen' : xsr.length + 1 = t := by
    rw [List.length_cons] at hxlen
    exact hxlen
  -- identify the polynomials of the recovered dealer
  have hkey : ∀ i ∈ List.range (mkShard d x0).ys.length,
      baryRecover ((mkShard d x0).threshold - 1)
        ((mkShard d x0 :: xsr.map (mkShard d)).map fun s' => (s'.x, s'.ys.getD i 0)) =
      .ok (.bary
        ((mkShard d x0 :: xsr.map (mkShard d)).map fun s' => (s'.x, s'.ys.getD i 0))
        (nodeWeights
          ((mkShard d x0 :: xsr.map (mkShard d)).map fun s' => (s'.x, s'.ys.getD i 0)))) := by
    intro i _
    have hlen1 : ((mkShard d x0 :: xsr.map (mkShard d)).map
        fun s' => (s'.x, s'.ys.getD i 0)).length = (mkShard d x0).threshold - 1 + 1 := by
      rw [List.length_map, List.length_cons, List.length_map]
      show xsr.length + 1 = d.threshold - 1 + 1
      rw [hthr]
      omega
    have hfst1 : ((((mkShard d x0 :: xsr.map (mkShard d)).map
        fun s' => (s'.x, s'.ys.getD i 0))).map Prod.fst).Nodup := by
      have heq : (((mkShard d x0 :: xsr.map (mkShard d)).map
          fun s' => (s'.x, s'.ys.getD i 0))).map Prod.fst = x0 :: xsr := by
        rw [← List.map_cons (mkShard d) x0 xsr, List.map_map, List.map_map]
        show (x0 :: xsr).map (fun x => x) = x0 :: xsr
        exact List.map_id _
      rw [heq]
      exact hxnd
    rw [baryRecover, if_neg (not_not_intro hlen1), if_neg (not_not_intro hfst1)]
  have hg := mapE_ok_of_forall _ _ (List.range (mkShard d x0).ys.length) hkey
  have hpolys2 : d2.polys = (List.range (mkShard d x0).ys.length).map fun i =>
      (.bary ((mkShard d x0 :: xsr.map (mkShard d)).map fun s' => (s'.x, s'.ys.getD i 0))
        (nodeWeights
          ((mkShard d x0 :: xsr.map (mkShard d)).map fun s' => (s'.x, s'.ys.getD i 0)))
        : EvalPoly F) := by
    have h1 := hmapE.symm.trans hg
    injection h1
  -- pointwise agreement between original and recovered polynomials
  have hpq : List.Forall₂ (fun p q => (∀ y : F, p.evaluate y = q.evaluate y) ∧
      p.constant = q.constant) d.polys d2.polys := by
    rw [hpolys2, List.forall₂_iff_get]
    constructor
    · rw [List.length_map, List.length_range, hN]
    · intro n h1 h2
      have hn : n < d.polys.length := h1
      have h2' : n < (List.range (mkShard d x0).ys.length).length := by
        rw [List.length_map] at h2
        exact h2
      have hq : ((List.range (mkShard d x0).ys.length).map fun i =>
          (.bary ((mkShard d x0 :: xsr.map (mkShard d)).map
            fun s' => (s'.x, s'.ys.getD i 0))
          (nodeWeights ((mkShard d x0 :: xsr.map (mkShard d)).map
            fun s' => (s'.x, s'.ys.getD i 0))) : EvalPoly F)).get ⟨n, h2⟩ =
          .bary ((mkShard d x0 :: xsr.map (mkShard d)).map
            fun s' => (s'.x, s'.ys.getD n 0))
          (nodeWeights ((mkShard d x0 :: xsr.map (mkShard d)).map
            fun s' => (s'.x, s'.ys.getD n 0))) := by
        rw [List.get_map]
        have hr : (List.range (mkShard d x0).ys.length).get
            ⟨n, by rwa [List.length_map] at h2⟩ = n := by
          simp [List.get_range]
        rw [hr]
      rw [hq]
      have hpget : d.polys.get ⟨n, h1⟩ = d.polys.getD n (.coeffs []) :=
        (List.getD_eq_get _ _ h1).symm
      have hpigetD := dealer_new_poly_getD enc hnew n hn
      have hpts := ptsFn_eq d x0 xsr n hn
      rw [hpigetD] at hpts
      have hlen2 : ((x0 :: xsr).map fun x =>
          (x, (EvalPoly.coeffs (enc.fromBytes ((chunksOf 4 s).getD n []) ::
            (List.range (t - 1)).map (rand n)) : EvalPoly F).evaluate x)).length =
          (enc.fromBytes ((chunksOf 4 s).getD n []) ::
            (List.range (t - 1)).map (rand n)).length := by
        rw [List.length_map, List.length_cons, List.length_cons, List.length_map,
          List.length_range]
        omega
      have hfst2 : (((x0 :: xsr).map fun x =>
          (x, (EvalPoly.coeffs (enc.fromBytes ((chunksOf 4 s).getD n []) ::
            (List.range (t - 1)).map (rand n)) : EvalPoly F).evaluate x)).map
          Prod.fst) = x0 :: xsr := by
        rw [List.map_map]
        exact List.map_id _
      have hval2 : ∀ p ∈ (x0 :: xsr).map fun x =>
          (x, (EvalPoly.coeffs (enc.fromBytes ((chunksOf 4 s).getD n []) ::
            (List.range (t - 1)).map (rand n)) : EvalPoly F).evaluate x),
          p.2 = evalCoeffs (enc.fromBytes ((chunksOf 4 s).getD n []) ::
            (List.range (t - 1)).map (rand n)) p.1 := by
        intro p hp
        obtain ⟨x, -, rfl⟩ := List.mem_map.mp hp
        rfl
      have hexact := baryEval_exact
        (enc.fromBytes ((chunksOf 4 s).getD n []) :: (List.range (t - 1)).map (rand n))
        ((x0 :: xsr).map fun x =>
          (x, (EvalPoly.coeffs (enc.fromBytes ((chunksOf 4 s).getD n []) ::
            (List.range (t - 1)).map (rand n)) : EvalPoly F).evaluate x))
        hlen2 (by rw [hfst2]; exact hxnd) hval2 (by simp)
      constructor
      · intro y
        rw [hpget, hpigetD]
        show evalCoeffs _ y = baryEval _ _ y
        rw [hpts]
        exact (hexact y).symm
      · rw [hpget, hpigetD]
        show (enc.fromBytes ((chunksOf 4 s).getD n []) ::
          (List.range (t - 1)).map (rand n)).headD 0 = baryEval _ _ 0
        rw [hpts, ← evalCoeffs_zero]
        exact (hexact 0).symm
  exact ⟨fun x => shard_congr d d2 hthr2 hsl2 hpq x, shard_zero d, shard_zero d2⟩

/-- Sample points of the C3 witness recovery. -/
def exPts3 : List (ZMod P61 × ZMod P61) := [(1, 8), (2, 9)]

/-- Dealer recovered from the C3 witness shards, its polynomial in
symbolic barycentric form. -/
def exD3r : Dealer (ZMod P61) := ⟨[.bary exPts3 (nodeWeights exPts3)], 1, 2⟩

theorem C3_recovered_dealer_equiv_witness :
    Dealer.new encP 2 [7] oneRandP = Except.ok exD2w ∧
    List.Forall₂ (fun x sh => exD2w.shard x = Except.ok (some sh))
      [(1 : ZMod P61), 2] [⟨1, [8], 2, 1⟩, ⟨2, [9], 2, 1⟩] ∧
    Dealer.recover ([⟨1, [8], 2, 1⟩, ⟨2, [9], 2, 1⟩] : List (Shard (ZMod P61))) =
      Except.ok exD3r ∧
    ((∀ x : ZMod P61, exD2w.shard x = exD3r.shard x) ∧
      exD2w.shard 0 = Except.ok none ∧ exD3r.shard 0 = Except.ok none) := by
  have hgen : List.Forall₂ (fun x sh => exD2w.shard x = Except.ok (some sh))
      [(1 : ZMod P61), 2] ([⟨1, [8], 2, 1⟩, ⟨2, [9], 2, 1⟩] : List (Shard (ZMod P61))) :=
    List.Forall₂.cons (by decide) (List.Forall₂.cons (by decide) List.Forall₂.nil)
  exact ⟨by decide, hgen, rfl,
    C3_recovered_dealer_equiv encP 2 (by norm_num) [7] oneRandP exD2w (by decide)
      [1, 2] [⟨1, [8], 2, 1⟩, ⟨2, [9], 2, 1⟩] (by decide) (by decide) hgen exD3r rfl⟩

/-- Coefficient-randomness stream of the C3 counterexample: first
non-constant coefficient `-3`, second `1`. -/
def cexRand : ℕ → ℕ → ZMod P61 := fun _ j => if j = 0 then -3 else 1

/-- Dealer produced by `Dealer::new(3, [5])` under `cexRand`: one
polynomial `5 - 3·x + x²`, which evaluates to its constant term at the
non-zero point `x = 3`. -/
def exD3 : Dealer (ZMod P61) := ⟨[.coeffs [5, -3, 1]], 1, 3⟩

/-- C3 counterexample: the claim's "structurally equal shards for every
non-zero x" is false as stated. With threshold 3 and secret `[5]`, a
legitimate run draws the three distinct shards below (so `Dealer::recover`
succeeds), yet at the non-zero point `x = 3` the original dealer's
`shard` does not return a shard at all: its polynomial evaluates to its
own constant term there, so the internal assertion fires. -/
theorem C3_counterexample :
    Dealer.new encP 3 [5] cexRand = Except.ok exD3 ∧
    List.Forall₂ (fun x sh => exD3.shard x = Except.ok (some sh))
      [(1 : ZMod P61), 2, 4] [⟨1, [3], 3, 1⟩, ⟨2, [3], 3, 1⟩, ⟨4, [9], 3, 1⟩] ∧
    [(1 : ZMod P61), 2, 4].Nodup ∧
    (Dealer.recover ([⟨1, [3], 3, 1⟩, ⟨2, [3], 3, 1⟩, ⟨4, [9], 3, 1⟩] :
      List (Shard (ZMod P61)))).isOk = true ∧
    (3 : ZMod P61) ≠ 0 ∧
    exD3.shard 3 = Except.error (Failure.panic PanicKind.constantCollision) := by
  refine ⟨by decide, ?_, by decide, by decide, by decide, by decide⟩
  exact List.Forall₂.cons (by decide) (List.Forall₂.cons (by decide)
    (List.Forall₂.cons (by decide) List.Forall₂.nil))

end Shamir
